import Mathlib

/-!
Verification of the Flet web server core (server/server/server.go).

The development shallowly embeds the parts of the server that the
specification talks about:

* the byte-buffer substitution primitive used by the shell rewriter
  (Go's bytes.Replace with count 1),
* the page-name resolution in the NoRoute fallback handler,
* the shell rewriting step (four placeholder substitutions),
* the NoRoute dispatch between the API 404 response and the shell,
* the listen/retry loop, the graceful-shutdown step, and the
  WebSocket upgrade handler.

Byte strings are modelled as List Char (the server only manipulates
ASCII literals here), and Go standard-library helpers (strings.Trim,
strings.Split, strings.Join, strings.HasPrefix, bytes.Replace) are
embedded as Lean functions with the same semantics.
-/

namespace FletServer


/-- Embedding of Go strings.HasPrefix / bytes.HasPrefix: does `pat`
occur at the very start of `s`? -/
def beginsWith : List Char → List Char → Bool
  | [], _ => true
  | _ :: _, [] => false
  | a :: as, b :: bs => a == b && beginsWith as bs

/-- `pat` occurs in `s` at position `i`. -/
def OccursAt (pat s : List Char) (i : Nat) : Prop :=
  beginsWith pat (s.drop i) = true

instance (pat s : List Char) (i : Nat) : Decidable (OccursAt pat s i) := by
  unfold OccursAt; infer_instance

/-- Embedding of Go bytes.Replace(s, old, new, 1): replace the first
occurrence of `old` in `s` by `new`; if `old` does not occur, return
`s` unchanged.  (When `old` is empty, Go inserts `new` at the start.) -/
def replace1 (old new : List Char) : List Char → List Char
  | [] => if old = [] then new else []
  | c :: rest =>
    if beginsWith old (c :: rest) then new ++ (c :: rest).drop old.length
    else c :: replace1 old new rest

/-- Index of the first occurrence of `pat` in `s`, if any. -/
def firstMatch? (pat : List Char) : List Char → Option Nat
  | [] => if beginsWith pat [] then some 0 else none
  | c :: rest =>
    if beginsWith pat (c :: rest) then some 0
    else (firstMatch? pat rest).map (· + 1)

/-! ### The shell rewriter (server.go lines 124-149) -/

/-- The four placeholders of the shell rewriter. -/
inductive Marker
  | mBase
  | mRoute
  | mRenderer
  | mEmoji
deriving DecidableEq

/-- The base-href marker replaced on line 129. -/
def baseMarker : List Char := ("<base href=\"/\">").toList

/-- The route-url-strategy marker replaced on line 134. -/
def routeMarker : List Char := ("%FLET_ROUTE_URL_STRATEGY%").toList

/-- The web-renderer marker replaced on line 140. -/
def rendererMarker : List Char := ("<!-- flutterWebRenderer -->").toList

/-- The color-emoji marker replaced on line 146. -/
def emojiMarker : List Char := ("<!-- useColorEmoji -->").toList

def markerOf : Marker → List Char
  | .mBase => baseMarker
  | .mRoute => routeMarker
  | .mRenderer => rendererMarker
  | .mEmoji => emojiMarker

/-- Replacement text for the base-href marker (line 130). -/
def baseRepl (baseHref : List Char) : List Char :=
  ("<base href=\"").toList ++ baseHref ++ ("\">").toList

/-- Replacement text for the renderer marker (line 141);
fmt.Sprintf with a string verb. -/
def rendererScript (webRenderer : List Char) : List Char :=
  ("<script>var flutterWebRenderer=\"").toList ++ webRenderer
    ++ ("\";</script>").toList

/-- Replacement text for the color-emoji marker (line 147);
fmt.Sprintf("%v", bool) prints true/false. -/
def emojiScript (useColorEmoji : Bool) : List Char :=
  ("<script>var useColorEmoji=").toList
    ++ (if useColorEmoji then ("true").toList else ("false").toList)
    ++ (";</script>").toList

/-- Replacement value each marker receives in the rewrite step. -/
def replOf (baseHref routeStrategy webRenderer : List Char)
    (useColorEmoji : Bool) : Marker → List Char
  | .mBase => baseRepl baseHref
  | .mRoute => routeStrategy
  | .mRenderer => rendererScript webRenderer
  | .mEmoji => emojiScript useColorEmoji

/-- Base-path substitution, lines 128-130. -/
def subBase (baseHref d : List Char) : List Char :=
  replace1 baseMarker (baseRepl baseHref) d

/-- Route-URL-strategy substitution, lines 133-135. -/
def subRoute (routeStrategy d : List Char) : List Char :=
  replace1 routeMarker routeStrategy d

/-- Web-renderer substitution, lines 138-142: performed only when the
configured renderer name is non-empty. -/
def subRenderer (webRenderer d : List Char) : List Char :=
  if webRenderer = [] then d
  else replace1 rendererMarker (rendererScript webRenderer) d

/-- Color-emoji substitution, lines 145-147. -/
def subEmoji (useColorEmoji : Bool) (d : List Char) : List Char :=
  replace1 emojiMarker (emojiScript useColorEmoji) d

/-- The whole rewrite step, lines 128-147, in source order:
base path, route URL strategy, web renderer, color emoji. -/
def rewriteShell (d baseHref routeStrategy webRenderer : List Char)
    (useColorEmoji : Bool) : List Char :=
  subEmoji useColorEmoji
    (subRenderer webRenderer (subRoute routeStrategy (subBase baseHref d)))

/-- Number of occurrences of `pat` in `s`. -/
def countOccur (pat s : List Char) : Nat :=
  ((List.range (s.length + 1)).filter
    (fun i => beginsWith pat (s.drop i))).length

/-! ### Occurrence preservation across substitutions (for C4) -/

/-- No suffix of `p` aligned with `q` can agree with it: an occurrence
of `q` can never start strictly inside or at the start of an
occurrence of `p`. -/
def OverlapFreeB (p q : List Char) : Bool :=
  (List.range p.length).all
    (fun d => !(beginsWith (p.drop d) q || beginsWith q (p.drop d)))

/-! ### Page-name resolution (server.go lines 101-122) -/

def isSlash (c : Char) : Bool := c == '/'

/-- Embedding of Go strings.Trim(s, "/"): remove all leading and
trailing slash characters. -/
def trimSlashes (l : List Char) : List Char :=
  ((l.dropWhile isSlash).reverse.dropWhile isSlash).reverse

/-- Embedding of Go strings.Split(s, "/") (separator a single slash):
the list of substrings between the slashes; empty substrings are kept. -/
def splitSlash : List Char → List (List Char)
  | [] => [[]]
  | c :: rest =>
    if isSlash c then [] :: splitSlash rest
    else
      match splitSlash rest with
      | [] => [[c]]
      | g :: gs => (c :: g) :: gs

/-- Embedding of Go strings.Join(parts, "/"). -/
def joinSlash : List (List Char) → List Char
  | [] => []
  | [x] => x
  | x :: xs => x ++ '/' :: joinSlash xs

/-- The page-name resolution of the NoRoute fallback handler, lines
102-122 of server.go: trim the URL path of slashes; a trimmed path
that splits into more than one part yields the join of the first two
parts as candidate page name, looked up in the page registry
(store.GetPageByName, abstracted as the predicate `knownPage`); on a
miss, or with at most one part, fall back to the root; finally wrap
the name in slashes. -/
def resolveGo (knownPage : List Char → Bool) (urlPath : List Char) :
    List Char :=
  let b0 := trimSlashes urlPath
  let b1 :=
    if b0 ≠ [] then
      let parts := splitSlash b0
      if parts.length > 1 then
        let cand := joinSlash (parts.take 2)
        if knownPage cand then cand else []
      else []
    else []
  if b1 ≠ [] then '/' :: (b1 ++ [ '/' ]) else [ '/' ]

/-- Reference definition for claim C1, following the specification's
words: segments are the components of the trimmed path split on
slashes; with fewer than two non-empty segments the base href is the
root; otherwise the first two segments joined by a slash form the
candidate identifier, registered ones are wrapped in slashes,
unregistered ones fall back to the root. -/
def resolveSpec (knownPage : List Char → Bool) (urlPath : List Char) :
    List Char :=
  let segs := splitSlash (trimSlashes urlPath)
  if (segs.filter (fun s => !s.isEmpty)).length < 2 then [ '/' ]
  else
    let p := joinSlash (segs.take 2)
    if knownPage p then '/' :: (p ++ [ '/' ]) else [ '/' ]

/-! ### The NoRoute fallback dispatch (server.go lines 99-156) -/

/-- The API route path constant of line 27 (value "/api"). -/
def apiRoute : List Char := ("/api").toList

/-- The default-document constant of line 28. -/
def siteDefaultDocument : List Char := ("index.html").toList

/-- The tested prefix "/api"+"/" of line 101. -/
def apiSlash : List Char := apiRoute ++ [ '/' ]

structure NoRouteResponse where
  status : Nat
  contentType : List Char
  body : List Char
deriving DecidableEq

/-- Content type passed to c.Data on line 149. -/
def htmlContentType : List Char := ("text/html").toList

/-- Content type written by gin's c.JSON on line 152. -/
def jsonContentType : List Char :=
  ("application/json; charset=utf-8").toList

/-- The serialized gin.H of lines 152-154. -/
def apiNotFoundBody : List Char :=
  ("\x7b\"message\":\"API endpoint not found\"\x7d").toList

/-- Modelled from the spec: the asset store interface of section 6,
open(path) -> byte stream | absent; the store implementation
(newAssetsFS) is not part of the given source file, so an asset store
is any map from paths to optional byte contents, `none` meaning the
asset is absent. -/
def AssetStore : Type := List Char → Option (List Char)

/-- The NoRoute fallback handler, lines 99-156.  The raw request URI
(which carries the query string and is not percent-decoded) is tested
against the "/api/" prefix, while the decoded URL path feeds the
page-name resolution.  The shell document is read with both the Open
and the ReadAll errors discarded (lines 124-125); when the store has
no shell document the handler calls io.ReadAll on the nil file — a
nil-interface method call — so no well-defined response is produced,
modelled as `none`. -/
def noRouteHandler (knownPage : List Char → Bool)
    (rawURI urlPath : List Char) (store : AssetStore)
    (routeStrategy webRenderer : List Char) (useColorEmoji : Bool) :
    Option NoRouteResponse :=
  if !(beginsWith apiSlash rawURI) then
    match store siteDefaultDocument with
    | none => none
    | some shell =>
      some ⟨200, htmlContentType,
        rewriteShell shell (resolveGo knownPage urlPath)
          routeStrategy webRenderer useColorEmoji⟩
  else
    some ⟨404, jsonContentType, apiNotFoundBody⟩

/-- The query-string part of a raw request URI is cut at the first
question mark when net/http derives URL.Path. -/
def stripQuery (rawURI : List Char) : List Char :=
  rawURI.takeWhile (fun c => c != '?')

def hexVal (c : Char) : Option Nat :=
  if '0' ≤ c ∧ c ≤ '9' then some (c.toNat - ('0').toNat)
  else if 'a' ≤ c ∧ c ≤ 'f' then some (c.toNat - ('a').toNat + 10)
  else if 'A' ≤ c ∧ c ≤ 'F' then some (c.toNat - ('A').toNat + 10)
  else none

/-- Percent-decoding of a URL path, as net/url performs it when
net/http parses the request URI into URL.Path (ASCII fragment, which
suffices for the inputs considered here). -/
def unescapePath : List Char → Option (List Char)
  | [] => some []
  | '%' :: h1 :: h2 :: rest =>
    match hexVal h1, hexVal h2 with
    | some a, some b =>
      (unescapePath rest).map (fun t => Char.ofNat (16 * a + b) :: t)
    | _, _ => none
  | '%' :: _ => none
  | c :: rest => (unescapePath rest).map (fun t => c :: t)

/-! ### The listen/retry loop (server.go lines 169-180) -/

/-- Result of one srv.ListenAndServe() call: `failed` is any error
other than http.ErrServerClosed. -/
inductive ServeOutcome
  | success
  | closed
  | failed
deriving DecidableEq

structure ListenTrace where
  attempts : Nat
  sleepsMs : List Nat
  fatal : Bool
deriving DecidableEq

/-- The retry loop of lines 170-179, run from attempt `i` with `fuel`
iterations left under the loop bound i < 10: on a failed call, attempt
9 is fatal (log.Fatalf terminates the process, line 173) and earlier
attempts sleep 100 ms (line 175) and retry; any other result breaks
out of the loop. -/
def runListen (outcomes : Nat → ServeOutcome) : Nat → Nat → ListenTrace
  | _, 0 => ⟨0, [], false⟩
  | i, fuel + 1 =>
    match outcomes i with
    | .failed =>
      if i = 9 then ⟨1, [], true⟩
      else
        let t := runListen outcomes (i + 1) fuel
        ⟨t.attempts + 1, 100 :: t.sleepsMs, t.fatal⟩
    | _ => ⟨1, [], false⟩

/-- The loop as started at line 170: i runs from 1 while i < 10. -/
def listenLoop (outcomes : Nat → ServeOutcome) : ListenTrace :=
  runListen outcomes 1 9

/-! ### Graceful shutdown (server.go lines 186-198) -/

/-- The drain bound of line 192: context.WithTimeout(..., 5 seconds). -/
def shutdownTimeoutSeconds : Nat := 5

inductive ShutdownReport
  | cleanExit
  | forcedShutdownFatal
deriving DecidableEq

/-- The shutdown step, lines 186-198: after the cancellation signal,
srv.Shutdown is called with the 5-second deadline context; per
net/http semantics Shutdown returns nil when the server drains within
the deadline and the context error otherwise; a non-nil error is
log.Fatal ("Server forced to shutdown"), a nil one logs the normal
"Server exited". -/
def shutdownStep (drainSeconds : Nat) : ShutdownReport :=
  if drainSeconds ≤ shutdownTimeoutSeconds then .cleanExit
  else .forcedShutdownFatal

/-! ### The WebSocket upgrade handler (server.go lines 201-215) -/

/-- Result of upgrader.Upgrade (line 207). -/
inductive UpgradeOutcome (Conn : Type)
  | ok (conn : Conn)
  | err (msg : List Char)

/-- One call of page.NewClient (line 214): the wrapped connection
together with the caller's network address and client agent string. -/
structure SessionCreated (Conn : Type) where
  conn : Conn
  remoteAddr : List Char
  userAgent : List Char

structure WsHandlerResult (Conn : Type) where
  errorLogs : List (List Char)
  sessions : List (SessionCreated Conn)

/-- The origin check installed on the upgrader, lines 203-205:
it accepts every request. -/
def checkOrigin (_request : List Char) : Bool := true

/-- The WebSocket handler, lines 201-215: a failed upgrade is logged
and the handler returns with no session created; a successful upgrade
hands the connection, client IP and user agent to the session
constructor exactly once. -/
def websocketHandler (Conn : Type) (upgrade : UpgradeOutcome Conn)
    (clientIP userAgent : List Char) : WsHandlerResult Conn :=
  match upgrade with
  | .err _msg =>
    ⟨[("Error upgrading WebSocket connection:").toList], []⟩
  | .ok conn => ⟨[], [⟨conn, clientIP, userAgent⟩]⟩

/-! ### Theorems -/

theorem beginsWith_nil_iff (pat : List Char) :
    beginsWith pat [] = true ↔ pat = [] := by
  cases pat <;> simp [beginsWith]

theorem beginsWith_iff_append (pat s : List Char) :
    beginsWith pat s = true ↔ ∃ t, s = pat ++ t := by
  induction pat generalizing s with
  | nil => simp [beginsWith]
  | cons a as ih =>
    cases s with
    | nil => simp [beginsWith]
    | cons b bs =>
      simp only [beginsWith, Bool.and_eq_true, beq_iff_eq, ih, List.cons_append,
        List.cons.injEq]
      constructor
      · rintro ⟨rfl, t, rfl⟩; exact ⟨t, rfl, rfl⟩
      · rintro ⟨t, rfl, rfl⟩; exact ⟨rfl, t, rfl⟩

theorem beginsWith_iff_take (pat s : List Char) :
    beginsWith pat s = true ↔ s.take pat.length = pat := by
  rw [beginsWith_iff_append]
  constructor
  · rintro ⟨t, rfl⟩
    simp [List.take_left]
  · intro h
    refine ⟨s.drop pat.length, ?_⟩
    conv_lhs => rw [← List.take_append_drop pat.length s]
    rw [h]

theorem beginsWith_refl_append (pat t : List Char) :
    beginsWith pat (pat ++ t) = true :=
  (beginsWith_iff_append pat _).mpr ⟨t, rfl⟩

/-- If `firstMatch?` finds no occurrence, `replace1` is the identity. -/
theorem replace1_of_firstMatch_none (old new s : List Char)
    (h : firstMatch? old s = none) : replace1 old new s = s := by
  induction s with
  | nil =>
    unfold firstMatch? at h
    unfold replace1
    split at h
    · exact absurd h (by simp)
    · next hb =>
      rw [if_neg (fun hnil => hb (by simp [hnil, beginsWith]))]
  | cons c rest ih =>
    unfold firstMatch? at h
    unfold replace1
    split at h
    · exact absurd h (by simp)
    · next hb =>
      rw [if_neg hb]
      simp only [Option.map_eq_none'] at h
      rw [ih h]

/-- If `firstMatch?` finds an occurrence at `n`, `replace1` splices
`new` in place of the `old.length` characters starting at `n`. -/
theorem replace1_of_firstMatch_some (old new s : List Char) (n : Nat)
    (h : firstMatch? old s = some n) :
    replace1 old new s = s.take n ++ new ++ s.drop (n + old.length) := by
  induction s generalizing n with
  | nil =>
    unfold firstMatch? at h
    split at h
    · next hb =>
      have : old = [] := (beginsWith_nil_iff old).mp hb
      simp only [Option.some.injEq] at h
      subst this
      simp [replace1, ← h]
    · exact absurd h (by simp)
  | cons c rest ih =>
    unfold firstMatch? at h
    split at h
    · next hb =>
      simp only [Option.some.injEq] at h
      subst h
      unfold replace1
      rw [if_pos hb]
      simp
    · next hb =>
      unfold replace1
      rw [if_neg hb]
      simp only [Option.map_eq_some'] at h
      obtain ⟨m, hm, rfl⟩ := h
      rw [ih m hm]
      simp only [List.take_succ_cons, List.cons_append]
      have : m + 1 + old.length = (m + old.length) + 1 := by omega
      rw [this, List.drop_succ_cons]

theorem firstMatch_occurs (pat s : List Char) (n : Nat)
    (h : firstMatch? pat s = some n) : OccursAt pat s n := by
  induction s generalizing n with
  | nil =>
    unfold firstMatch? at h
    split at h
    · next hb =>
      simp only [Option.some.injEq] at h
      subst h
      simpa [OccursAt] using hb
    · exact absurd h (by simp)
  | cons c rest ih =>
    unfold firstMatch? at h
    split at h
    · next hb =>
      simp only [Option.some.injEq] at h
      subst h
      simpa [OccursAt] using hb
    · simp only [Option.map_eq_some'] at h
      obtain ⟨m, hm, rfl⟩ := h
      simpa [OccursAt] using ih m hm

theorem firstMatch_least (pat s : List Char) (n : Nat)
    (h : firstMatch? pat s = some n) : ∀ j, j < n → ¬ OccursAt pat s j := by
  induction s generalizing n with
  | nil =>
    unfold firstMatch? at h
    split at h
    · simp only [Option.some.injEq] at h
      subst h
      omega
    · exact absurd h (by simp)
  | cons c rest ih =>
    unfold firstMatch? at h
    split at h
    · simp only [Option.some.injEq] at h
      subst h
      omega
    · next hb =>
      simp only [Option.map_eq_some'] at h
      obtain ⟨m, hm, rfl⟩ := h
      intro j hj
      cases j with
      | zero => simpa [OccursAt] using hb
      | succ k =>
        have := ih m hm k (by omega)
        simpa [OccursAt] using this

theorem firstMatch_none_iff (pat s : List Char) :
    firstMatch? pat s = none ↔ ∀ i, ¬ OccursAt pat s i := by
  constructor
  · intro h i
    induction s generalizing i with
    | nil =>
      unfold firstMatch? at h
      split at h
      · exact absurd h (by simp)
      · next hb =>
        intro hocc
        cases i <;> simp_all [OccursAt, List.drop_nil]
    | cons c rest ih =>
      unfold firstMatch? at h
      split at h
      · exact absurd h (by simp)
      · next hb =>
        simp only [Option.map_eq_none'] at h
        intro hocc
        cases i with
        | zero => exact absurd hocc (by simpa [OccursAt] using hb)
        | succ k => exact ih h k (by simpa [OccursAt] using hocc)
  · intro h
    cases hm : firstMatch? pat s with
    | none => rfl
    | some n => exact absurd (firstMatch_occurs pat s n hm) (h n)

theorem firstMatch_of_occurs (pat s : List Char) (i : Nat)
    (h : OccursAt pat s i) : ∃ n, firstMatch? pat s = some n ∧ n ≤ i := by
  cases hm : firstMatch? pat s with
  | none => exact absurd h ((firstMatch_none_iff pat s).mp hm i)
  | some n =>
    refine ⟨n, rfl, ?_⟩
    by_contra hlt
    exact firstMatch_least pat s n hm i (by omega) h

/-- Claim C2: each of the four substitutions of the rewrite step
replaces at most the first occurrence of its marker — if the marker
does not occur the document is unchanged (a no-op, not an error), and
if it occurs, only the earliest occurrence is spliced out and replaced,
the rest of the document being kept verbatim. -/
theorem c2_first_occurrence_only (k : Marker) (doc rep : List Char) :
    ((∀ i, ¬ OccursAt (markerOf k) doc i) →
      replace1 (markerOf k) rep doc = doc)
    ∧ (∀ i, OccursAt (markerOf k) doc i →
        (∀ j, OccursAt (markerOf k) doc j → i ≤ j) →
        replace1 (markerOf k) rep doc =
          doc.take i ++ rep ++ doc.drop (i + (markerOf k).length)) := by
  constructor
  · intro h
    exact replace1_of_firstMatch_none _ _ _
      ((firstMatch_none_iff (markerOf k) doc).mpr h)
  · intro i hocc hleast
    obtain ⟨n, hn, hni⟩ := firstMatch_of_occurs (markerOf k) doc i hocc
    have hin : i ≤ n := hleast n (firstMatch_occurs _ _ _ hn)
    have : i = n := le_antisymm hin (by omega)
    subst this
    exact replace1_of_firstMatch_some _ _ _ _ hn

/-- Witness for C2: the base-href marker, occurring at position 0 of a
document equal to the marker itself, is replaced (by the empty string)
exactly at that position. -/
theorem c2_first_occurrence_only_witness :
    replace1 (markerOf Marker.mBase) [] baseMarker =
      baseMarker.take 0 ++ [] ++
        baseMarker.drop (0 + (markerOf Marker.mBase).length) :=
  (c2_first_occurrence_only Marker.mBase baseMarker []).2 0 (by decide)
    (fun j _ => Nat.zero_le j)

theorem take_len_append (a X : List Char) : (a ++ X).take a.length = a :=
  List.take_left a X

theorem drop_len_append (a X : List Char) : (a ++ X).drop a.length = X :=
  List.drop_left a X

theorem drop_add_append (a X : List Char) (n : Nat) :
    (a ++ X).drop (a.length + n) = X.drop n := by
  rw [← List.drop_drop, List.drop_left]

theorem take_add_append (a X : List Char) (n : Nat) :
    (a ++ X).take (a.length + n) = a ++ X.take n := by
  rw [List.take_append_eq_append_take]
  rw [List.take_of_length_le (Nat.le_add_right _ _)]
  congr 1
  congr 1
  omega

/-- Splicing `r` for `p` at a decomposed occurrence: when the first
occurrence of `p` is exactly the displayed one, `replace1` keeps the
prefix and suffix verbatim. -/
theorem replace1_at_decomp (p r A X : List Char)
    (h : firstMatch? p (A ++ (p ++ X)) = some A.length) :
    replace1 p r (A ++ (p ++ X)) = A ++ (r ++ X) := by
  have hs := replace1_of_firstMatch_some p r (A ++ (p ++ X)) A.length h
  rw [hs, take_len_append, drop_add_append, drop_len_append]
  simp [List.append_assoc]

/-- Counterexample to claim C3 as stated: a shell document in which
every placeholder occurs at most once (the document is exactly the
route-url-strategy marker), yet two different orders of the four
substitutions give different outputs, because the configured route
strategy value is itself the color-emoji marker.  The first output is
the source order (base, route, renderer, emoji); the second applies
emoji before route. -/
theorem c3_counterexample :
    countOccur baseMarker routeMarker ≤ 1
    ∧ countOccur routeMarker routeMarker ≤ 1
    ∧ countOccur rendererMarker routeMarker ≤ 1
    ∧ countOccur emojiMarker routeMarker ≤ 1
    ∧ rewriteShell routeMarker [] emojiMarker [] false ≠
        subRenderer []
          (subRoute emojiMarker (subEmoji false (subBase [] routeMarker))) := by
  refine ⟨by decide, by decide, by decide, by decide, by decide⟩

/-- Claim C3 (amended): two substitutions of the rewrite step commute
— and each present marker is replaced exactly once, the output being
the document with each marker spliced out for its value — provided the
first occurrence of each of the two markers is the displayed one both
before and after the other substitution (in particular, neither
substituted value introduces an occurrence of the other marker earlier
in the document). -/
theorem c3_amended_commute (i j : Marker)
    (bh rs wr : List Char) (ue : Bool) (a b c : List Char)
    (h1 : firstMatch? (markerOf i)
        (a ++ markerOf i ++ b ++ markerOf j ++ c) = some a.length)
    (h2 : firstMatch? (markerOf j)
        (a ++ markerOf i ++ b ++ markerOf j ++ c) =
        some (a.length + (markerOf i).length + b.length))
    (h3 : firstMatch? (markerOf j)
        (a ++ replOf bh rs wr ue i ++ b ++ markerOf j ++ c) =
        some (a.length + (replOf bh rs wr ue i).length + b.length))
    (h4 : firstMatch? (markerOf i)
        (a ++ markerOf i ++ b ++ replOf bh rs wr ue j ++ c) =
        some a.length) :
    replace1 (markerOf j) (replOf bh rs wr ue j)
        (replace1 (markerOf i) (replOf bh rs wr ue i)
          (a ++ markerOf i ++ b ++ markerOf j ++ c)) =
      a ++ replOf bh rs wr ue i ++ b ++ replOf bh rs wr ue j ++ c
    ∧ replace1 (markerOf i) (replOf bh rs wr ue i)
        (replace1 (markerOf j) (replOf bh rs wr ue j)
          (a ++ markerOf i ++ b ++ markerOf j ++ c)) =
      a ++ replOf bh rs wr ue i ++ b ++ replOf bh rs wr ue j ++ c := by
  set pi := markerOf i with hpi
  set pj := markerOf j with hpj
  set ri := replOf bh rs wr ue i with hri
  set rj := replOf bh rs wr ue j with hrj
  constructor
  · have s1 : replace1 pi ri (a ++ pi ++ b ++ pj ++ c) =
        a ++ (ri ++ (b ++ (pj ++ c))) := by
      have h1' : firstMatch? pi (a ++ (pi ++ (b ++ (pj ++ c)))) =
          some a.length := by
        simpa [List.append_assoc] using h1
      have := replace1_at_decomp pi ri a (b ++ (pj ++ c)) h1'
      simpa [List.append_assoc] using this
    rw [s1]
    have h3' : firstMatch? pj ((a ++ (ri ++ b)) ++ (pj ++ c)) =
        some (a ++ (ri ++ b)).length := by
      simpa [List.append_assoc, List.length_append, Nat.add_assoc] using h3
    have := replace1_at_decomp pj rj (a ++ (ri ++ b)) c h3'
    rw [show a ++ (ri ++ (b ++ (pj ++ c))) =
        (a ++ (ri ++ b)) ++ (pj ++ c) by simp [List.append_assoc]]
    rw [this]
    simp [List.append_assoc]
  · have s2 : replace1 pj rj (a ++ pi ++ b ++ pj ++ c) =
        a ++ (pi ++ (b ++ (rj ++ c))) := by
      have h2' : firstMatch? pj ((a ++ (pi ++ b)) ++ (pj ++ c)) =
          some (a ++ (pi ++ b)).length := by
        simpa [List.append_assoc, List.length_append, Nat.add_assoc] using h2
      have := replace1_at_decomp pj rj (a ++ (pi ++ b)) c h2'
      rw [show a ++ pi ++ b ++ pj ++ c =
          (a ++ (pi ++ b)) ++ (pj ++ c) by simp [List.append_assoc]]
      rw [this]
      simp [List.append_assoc]
    rw [s2]
    have h4' : firstMatch? pi (a ++ (pi ++ (b ++ (rj ++ c)))) =
        some a.length := by
      simpa [List.append_assoc] using h4
    have := replace1_at_decomp pi ri a (b ++ (rj ++ c)) h4'
    rw [this]
    simp [List.append_assoc]

/-- Witness for the amended C3: base-href and route-strategy
substitutions commute on the document A&lt;base marker&gt;B&lt;route marker&gt;C
with benign configured values. -/
theorem c3_amended_commute_witness :
    replace1 (markerOf Marker.mRoute)
        (replOf (("/").toList) (("hash").toList) [] false Marker.mRoute)
        (replace1 (markerOf Marker.mBase)
          (replOf (("/").toList) (("hash").toList) [] false Marker.mBase)
          ((("A").toList) ++ markerOf Marker.mBase ++ (("B").toList)
            ++ markerOf Marker.mRoute ++ (("C").toList))) =
      (("A").toList) ++ replOf (("/").toList) (("hash").toList) [] false Marker.mBase
        ++ (("B").toList)
        ++ replOf (("/").toList) (("hash").toList) [] false Marker.mRoute
        ++ (("C").toList) :=
  (c3_amended_commute Marker.mBase Marker.mRoute (("/").toList)
    (("hash").toList) [] false (("A").toList) (("B").toList) (("C").toList)
    (by decide) (by decide) (by decide) (by decide)).1

theorem beginsWith_drop (pat s : List Char) (d : Nat)
    (h : beginsWith pat s = true) :
    beginsWith (pat.drop d) (s.drop d) = true := by
  rw [beginsWith_iff_append] at h
  obtain ⟨t, rfl⟩ := h
  rcases Nat.le_total d pat.length with hd | hd
  · rw [beginsWith_iff_append]
    refine ⟨t, ?_⟩
    rw [List.drop_append_eq_append_drop]
    rw [Nat.sub_eq_zero_of_le hd]
    rfl
  · rw [List.drop_of_length_le (by omega : pat.length ≤ d)]
    simp [beginsWith]

theorem beginsWith_of_longer (p q t : List Char)
    (hp : beginsWith p t = true) (hq : beginsWith q t = true)
    (hlen : p.length ≤ q.length) : beginsWith p q = true := by
  rw [beginsWith_iff_take] at hp hq ⊢
  rw [← hq, List.take_take, Nat.min_eq_left hlen, hp]

/-- Occurrences of overlap-free patterns are disjoint intervals. -/
theorem disjoint_of_overlapFree (p q s : List Char) (n i : Nat)
    (hpq : OverlapFreeB p q = true) (hqp : OverlapFreeB q p = true)
    (hp : OccursAt p s n) (hq : OccursAt q s i) :
    i + q.length ≤ n ∨ n + p.length ≤ i := by
  by_contra hcon
  push_neg at hcon
  obtain ⟨hni, hin⟩ := hcon
  unfold OverlapFreeB at hpq hqp
  rw [List.all_eq_true] at hpq hqp
  rcases Nat.le_total n i with hle | hle
  · -- q starts at i inside the occurrence of p at n
    have hd : i - n < p.length := by omega
    have h1 : beginsWith (p.drop (i - n)) (s.drop i) = true := by
      have := beginsWith_drop p (s.drop n) (i - n) hp
      rwa [List.drop_drop, Nat.add_sub_cancel' hle] at this
    have hcontra := hpq (i - n) (List.mem_range.mpr hd)
    rcases Nat.le_total (p.drop (i - n)).length q.length with hl | hl
    · have := beginsWith_of_longer (p.drop (i - n)) q (s.drop i) h1 hq hl
      simp [this] at hcontra
    · have := beginsWith_of_longer q (p.drop (i - n)) (s.drop i) hq h1 hl
      simp [this] at hcontra
  · -- p starts at n inside the occurrence of q at i
    have hd : n - i < q.length := by omega
    have h1 : beginsWith (q.drop (n - i)) (s.drop n) = true := by
      have := beginsWith_drop q (s.drop i) (n - i) hq
      rwa [List.drop_drop, Nat.add_sub_cancel' hle] at this
    have hcontra := hqp (n - i) (List.mem_range.mpr hd)
    rcases Nat.le_total (q.drop (n - i)).length p.length with hl | hl
    · have := beginsWith_of_longer (q.drop (n - i)) p (s.drop n) h1 hp hl
      simp [this] at hcontra
    · have := beginsWith_of_longer p (q.drop (n - i)) (s.drop n) hp h1 hl
      simp [this] at hcontra

theorem occursAt_length_lt (pat s : List Char) (i : Nat)
    (hne : pat ≠ []) (h : OccursAt pat s i) : i < s.length := by
  unfold OccursAt at h
  rw [beginsWith_iff_append] at h
  obtain ⟨t, ht⟩ := h
  by_contra hc
  push_neg at hc
  rw [List.drop_of_length_le hc] at ht
  cases pat with
  | nil => exact hne rfl
  | cons a as => simp at ht

/-- A substitution of an overlap-free pattern preserves occurrence of
`q`: the occurrence of `q` survives (possibly shifted). -/
theorem occurs_replace1_of_overlapFree (p q r s : List Char) (i : Nat)
    (hpne : p ≠ []) (hpq : OverlapFreeB p q = true)
    (hqp : OverlapFreeB q p = true) (hq : OccursAt q s i) :
    ∃ j, OccursAt q (replace1 p r s) j := by
  cases hm : firstMatch? p s with
  | none =>
    exact ⟨i, by rw [replace1_of_firstMatch_none p r s hm]; exact hq⟩
  | some n =>
    have hrw := replace1_of_firstMatch_some p r s n hm
    have hpn : OccursAt p s n := firstMatch_occurs p s n hm
    have hns : n < s.length := occursAt_length_lt p s n hpne hpn
    rcases disjoint_of_overlapFree p q s n i hpq hqp hpn hq with hlt | hge
    · -- occurrence of q entirely before the spliced region
      refine ⟨i, ?_⟩
      unfold OccursAt at hq ⊢
      rw [beginsWith_iff_append] at hq
      obtain ⟨t, ht⟩ := hq
      rw [hrw]
      have hA : (s.take n).drop i = q ++ t.take (n - i - q.length) := by
        rw [List.drop_take, ht, List.take_append_eq_append_take,
          List.take_of_length_le (by omega : q.length ≤ n - i)]
      have hlenA : i ≤ (s.take n).length := by rw [List.length_take]; omega
      rw [List.append_assoc, List.drop_append_eq_append_drop,
        Nat.sub_eq_zero_of_le hlenA, List.drop_zero, hA]
      simp only [List.append_assoc]
      exact beginsWith_refl_append q _
    · -- occurrence of q entirely after the spliced region
      have htk : (s.take n).length = n := by rw [List.length_take]; omega
      refine ⟨n + r.length + (i - n - p.length), ?_⟩
      unfold OccursAt at hq ⊢
      rw [hrw, List.drop_append_eq_append_drop]
      rw [List.drop_of_length_le
        (show (s.take n ++ r).length ≤ n + r.length + (i - n - p.length) by
          rw [List.length_append, htk]; omega)]
      rw [List.nil_append]
      rw [show n + r.length + (i - n - p.length) - (s.take n ++ r).length =
          i - n - p.length by rw [List.length_append, htk]; omega]
      rw [List.drop_drop]
      rw [show n + p.length + (i - n - p.length) = i by omega]
      exact hq

/-- Claim C4: when the configured web-renderer name is empty, the
rewrite step skips the renderer substitution entirely (no renderer
script is injected), and any renderer-marker occurrence in the shell
document survives into the output unmodified. -/
theorem c4_renderer_untouched (d bh rs : List Char) (ue : Bool) (i : Nat)
    (hocc : OccursAt rendererMarker d i) :
    rewriteShell d bh rs [] ue =
      subEmoji ue (subRoute rs (subBase bh d))
    ∧ ∃ j, OccursAt rendererMarker (rewriteShell d bh rs [] ue) j := by
  have hskip : rewriteShell d bh rs [] ue =
      subEmoji ue (subRoute rs (subBase bh d)) := by
    simp [rewriteShell, subRenderer]
  refine ⟨hskip, ?_⟩
  rw [hskip]
  obtain ⟨j1, hj1⟩ := occurs_replace1_of_overlapFree baseMarker
    rendererMarker (baseRepl bh) d i (by decide) (by decide) (by decide) hocc
  obtain ⟨j2, hj2⟩ := occurs_replace1_of_overlapFree routeMarker
    rendererMarker rs (subBase bh d) j1 (by decide) (by decide) (by decide) hj1
  obtain ⟨j3, hj3⟩ := occurs_replace1_of_overlapFree emojiMarker
    rendererMarker (emojiScript ue) (subRoute rs (subBase bh d)) j2
    (by decide) (by decide) (by decide) hj2
  exact ⟨j3, hj3⟩

/-- Witness for C4: a document equal to the renderer marker passes
through the rewrite step unmodified when no renderer is configured. -/
theorem c4_renderer_untouched_witness :
    ∃ j, OccursAt rendererMarker
      (rewriteShell rendererMarker (("/").toList) [] [] false) j :=
  (c4_renderer_untouched rendererMarker (("/").toList) [] false 0
    (by decide)).2

theorem splitSlash_ne_nil (l : List Char) : splitSlash l ≠ [] := by
  cases l with
  | nil => simp [splitSlash]
  | cons c rest =>
    unfold splitSlash
    split
    · simp
    · split <;> simp

theorem joinSlash_splitSlash (l : List Char) :
    joinSlash (splitSlash l) = l := by
  induction l with
  | nil => rfl
  | cons c rest ih =>
    unfold splitSlash
    split
    · next hc =>
      obtain ⟨g, gs, hgg⟩ :
          ∃ g gs, splitSlash rest = g :: gs := by
        cases h : splitSlash rest with
        | nil => exact absurd h (splitSlash_ne_nil rest)
        | cons g gs => exact ⟨g, gs, rfl⟩
      rw [hgg]
      rw [hgg] at ih
      have : (c == '/') = true := hc
      have hc' : c = '/' := by simpa using this
      subst hc'
      simp [joinSlash, ih]
    · next hc =>
      cases h : splitSlash rest with
      | nil => exact absurd h (splitSlash_ne_nil rest)
      | cons g gs =>
        rw [h] at ih
        cases gs with
        | nil => simpa [joinSlash] using congrArg (c :: ·) ih
        | cons g2 gs2 =>
          simp only [joinSlash] at ih ⊢
          rw [← ih]
          simp

theorem splitSlash_singleton (l : List Char) (x : List Char)
    (h : splitSlash l = [x]) : x = l := by
  have := joinSlash_splitSlash l
  rw [h] at this
  simpa [joinSlash] using this

theorem splitSlash_head_cons (c : Char) (rest : List Char)
    (hc : isSlash c = false) :
    ∃ g gs, splitSlash (c :: rest) = (c :: g) :: gs := by
  unfold splitSlash
  rw [hc]
  simp only [Bool.false_eq_true, if_false]
  cases h : splitSlash rest with
  | nil => exact absurd h (splitSlash_ne_nil rest)
  | cons g gs => exact ⟨g, gs, rfl⟩

theorem splitSlash_getLast (l : List Char) :
    ∀ x y, l.getLast? = some x → isSlash x = false →
      (splitSlash l).getLast? = some y → y ≠ [] := by
  induction l with
  | nil => intro x y hx; simp at hx
  | cons c rest ih =>
    intro x y hx hslash hy
    cases hr : rest with
    | nil =>
      subst hr
      simp only [List.getLast?_singleton, Option.some.injEq] at hx
      subst hx
      unfold splitSlash at hy
      rw [hslash] at hy
      simp only [Bool.false_eq_true, if_false, splitSlash] at hy
      simp only [List.getLast?_singleton, Option.some.injEq] at hy
      subst hy
      simp
    | cons c2 rest2 =>
      have hrest : rest ≠ [] := by rw [hr]; simp
      have hx' : rest.getLast? = some x := by
        rw [hr] at hx ⊢
        simpa [List.getLast?_cons_cons] using hx
      unfold splitSlash at hy
      split at hy
      · -- leading slash: parts are [] :: splitSlash rest
        obtain ⟨g, gs, hgg⟩ :
            ∃ g gs, splitSlash rest = g :: gs := by
          cases h : splitSlash rest with
          | nil => exact absurd h (splitSlash_ne_nil rest)
          | cons g gs => exact ⟨g, gs, rfl⟩
        rw [hgg] at hy
        rw [List.getLast?_cons_cons] at hy
        exact ih x y hx' hslash (by rw [hgg]; exact hy)
      · cases h : splitSlash rest with
        | nil => exact absurd h (splitSlash_ne_nil rest)
        | cons g gs =>
          rw [h] at hy
          cases gs with
          | nil =>
            simp only [List.getLast?_singleton, Option.some.injEq] at hy
            subst hy
            simp
          | cons g2 gs2 =>
            rw [List.getLast?_cons_cons] at hy
            exact ih x y hx' hslash
              (by rw [h, List.getLast?_cons_cons]; exact hy)

theorem head?_dropWhileB (P : Char → Bool) :
    ∀ (l : List Char) (x : Char),
      (List.dropWhile P l).head? = some x → P x = false := by
  intro l
  induction l with
  | nil => intro x hx; simp [List.dropWhile] at hx
  | cons c rest ih =>
    intro x hx
    rw [List.dropWhile_cons] at hx
    split at hx
    · exact ih x hx
    · next hc =>
      simp only [List.head?_cons, Option.some.injEq] at hx
      subst hx
      simpa using hc

theorem getLast?_dropWhileB (P : Char → Bool) :
    ∀ (l : List Char), List.dropWhile P l ≠ [] →
      (List.dropWhile P l).getLast? = l.getLast? := by
  intro l
  induction l with
  | nil => intro h; simp at h
  | cons c rest ih =>
    intro h
    rw [List.dropWhile_cons]
    rw [List.dropWhile_cons] at h
    split
    · next hc =>
      rw [hc] at h
      simp only [if_true] at h
      rw [ih h]
      have hrest : rest ≠ [] := by
        intro hr
        rw [hr] at h
        simp [List.dropWhile] at h
      obtain ⟨r, rs, rfl⟩ := List.exists_cons_of_ne_nil hrest
      exact (List.getLast?_cons_cons).symm
    · rfl

theorem trimSlashes_head (l : List Char) (x : Char)
    (h : (trimSlashes l).head? = some x) : isSlash x = false := by
  unfold trimSlashes at h
  set A := l.dropWhile isSlash with hA
  set B := A.reverse.dropWhile isSlash with hB
  have hBne : B ≠ [] := by
    intro hb
    rw [hb] at h
    simp at h
  rw [List.head?_reverse] at h
  rw [getLast?_dropWhileB isSlash A.reverse (by rw [← hB]; exact hBne)] at h
  rw [List.getLast?_reverse] at h
  exact head?_dropWhileB isSlash l x (by rw [← hA]; exact h)

theorem trimSlashes_getLast (l : List Char) (x : Char)
    (h : (trimSlashes l).getLast? = some x) : isSlash x = false := by
  unfold trimSlashes at h
  rw [List.getLast?_reverse] at h
  exact head?_dropWhileB isSlash _ x h

theorem filter_two_of_ends (parts : List (List Char)) (g : List Char)
    (gs : List (List Char)) (x : List Char)
    (hp : parts = g :: gs) (hgs : gs ≠ []) (hg : g ≠ [])
    (hx : parts.getLast? = some x) (hxne : x ≠ []) :
    2 ≤ (parts.filter (fun s => !s.isEmpty)).length := by
  subst hp
  have hmem : x ∈ gs := by
    obtain ⟨g2, gs2, rfl⟩ := List.exists_cons_of_ne_nil hgs
    rw [List.getLast?_cons_cons] at hx
    exact List.mem_of_mem_getLast? hx
  have hxf : x ∈ gs.filter (fun s => !s.isEmpty) := by
    rw [List.mem_filter]
    exact ⟨hmem, by simpa [List.isEmpty_iff] using hxne⟩
  have h1 : 1 ≤ (gs.filter (fun s => !s.isEmpty)).length :=
    List.length_pos.mpr (List.ne_nil_of_mem hxf)
  have hgf : (g :: gs).filter (fun s => !s.isEmpty) =
      g :: gs.filter (fun s => !s.isEmpty) := by
    rw [List.filter_cons]
    simp [List.isEmpty_iff, hg]
  rw [hgf]
  simp only [List.length_cons]
  omega

/-- Claim C1: the page-name resolution computed by the no-route
fallback handler equals the reference definition written from the
specification. -/
theorem c1_resolve_refines (knownPage : List Char → Bool)
    (urlPath : List Char) :
    resolveGo knownPage urlPath = resolveSpec knownPage urlPath := by
  unfold resolveGo resolveSpec
  dsimp only
  by_cases hb0 : trimSlashes urlPath = []
  · rw [hb0]
    simp [splitSlash, joinSlash]
  · rw [if_pos hb0]
    by_cases hlen : (splitSlash (trimSlashes urlPath)).length > 1
    · rw [if_pos hlen]
      -- the trimmed path has at least two split parts; both ends are
      -- non-empty, so there are at least two non-empty segments
      obtain ⟨c, rest, hcr⟩ := List.exists_cons_of_ne_nil hb0
      have hhead : isSlash c = false := by
        apply trimSlashes_head urlPath
        rw [hcr]
        rfl
      obtain ⟨g, gs, hgg⟩ := splitSlash_head_cons c rest hhead
      have hsplit : splitSlash (trimSlashes urlPath) = (c :: g) :: gs := by
        rw [hcr, hgg]
      have hgs : gs ≠ [] := by
        intro hgsnil
        rw [hsplit, hgsnil] at hlen
        simp at hlen
      obtain ⟨x, hx⟩ : ∃ x,
          (splitSlash (trimSlashes urlPath)).getLast? = some x := by
        cases h : (splitSlash (trimSlashes urlPath)).getLast? with
        | none =>
          rw [List.getLast?_eq_none_iff] at h
          exact absurd h (splitSlash_ne_nil _)
        | some y => exact ⟨y, rfl⟩
      obtain ⟨xe, hxe⟩ : ∃ xe,
          (trimSlashes urlPath).getLast? = some xe := by
        cases h : (trimSlashes urlPath).getLast? with
        | none =>
          rw [List.getLast?_eq_none_iff] at h
          exact absurd h hb0
        | some y => exact ⟨y, rfl⟩
      have hxne : x ≠ [] :=
        splitSlash_getLast (trimSlashes urlPath) xe x hxe
          (trimSlashes_getLast urlPath xe hxe) hx
      have hfil : 2 ≤ ((splitSlash (trimSlashes urlPath)).filter
          (fun s => !s.isEmpty)).length :=
        filter_two_of_ends _ (c :: g) gs x hsplit hgs (by simp) hx hxne
      rw [if_neg (show ¬ ((List.filter (fun s => !s.isEmpty)
        (splitSlash (trimSlashes urlPath))).length < 2) from by omega)]
      -- candidate is non-empty, so the Go wrap and the spec wrap agree
      obtain ⟨p2, rest2, hp2⟩ := List.exists_cons_of_ne_nil hgs
      have htake : (splitSlash (trimSlashes urlPath)).take 2 =
          [c :: g, p2] := by
        rw [hsplit, hp2]
        rfl
      have hcand : joinSlash ((splitSlash (trimSlashes urlPath)).take 2) =
          (c :: g) ++ '/' :: p2 := by
        rw [htake]
        rfl
      have hcne : joinSlash ((splitSlash (trimSlashes urlPath)).take 2)
          ≠ [] := by
        rw [hcand]
        simp
      by_cases hkp : knownPage (joinSlash
          ((splitSlash (trimSlashes urlPath)).take 2)) = true
      · rw [if_pos hkp, if_pos hkp, if_pos hcne]
      · rw [if_neg hkp, if_neg hkp]
        simp
    · rw [if_neg hlen]
      rw [if_neg (by simp)]
      -- a single split part: it is the whole trimmed path; since the
      -- list of parts is a singleton there are fewer than two
      -- non-empty segments
      obtain ⟨y, hy⟩ : ∃ y, splitSlash (trimSlashes urlPath) = [y] := by
        cases h : splitSlash (trimSlashes urlPath) with
        | nil => exact absurd h (splitSlash_ne_nil _)
        | cons a as =>
          cases as with
          | nil => exact ⟨a, rfl⟩
          | cons b bs =>
            rw [h] at hlen
            simp at hlen
      have hflt : ((splitSlash (trimSlashes urlPath)).filter
          (fun s => !s.isEmpty)).length < 2 := by
        rw [hy]
        have := List.length_filter_le (fun s => !s.isEmpty) [y]
        simp only [List.length_singleton] at this
        omega
      rw [if_pos hflt]

/-- Claim C5 (amended): the NoRoute handler answers 404 with the fixed
JSON body exactly when the RAW REQUEST URI starts with "/api/" — a
constant response, so the test precedes and is independent of
page-name resolution — and otherwise serves the rewritten shell with
content type text/html and status 200. -/
theorem c5_amended_api_discriminator (knownPage : List Char → Bool)
    (rawURI urlPath : List Char) (store : AssetStore)
    (rs wr : List Char) (ue : Bool) :
    (beginsWith apiSlash rawURI = true →
      noRouteHandler knownPage rawURI urlPath store rs wr ue =
        some ⟨404, jsonContentType, apiNotFoundBody⟩)
    ∧ (beginsWith apiSlash rawURI = false → ∀ shell,
        store siteDefaultDocument = some shell →
        noRouteHandler knownPage rawURI urlPath store rs wr ue =
          some ⟨200, htmlContentType,
            rewriteShell shell (resolveGo knownPage urlPath) rs wr ue⟩) := by
  constructor
  · intro h
    simp [noRouteHandler, h]
  · intro h shell hs
    simp [noRouteHandler, h, hs]

/-- Witness for the amended C5: a raw URI under /api/ that matches no
route receives the 404 JSON response. -/
theorem c5_amended_api_discriminator_witness :
    noRouteHandler (fun _ => false) (("/api/zz").toList)
      (("/api/zz").toList) (fun _ => some []) [] [] false =
      some ⟨404, jsonContentType, apiNotFoundBody⟩ :=
  (c5_amended_api_discriminator (fun _ => false) (("/api/zz").toList)
    (("/api/zz").toList) (fun _ => some []) [] [] false).1 (by decide)

/-- Counterexample to C5 as stated: a request whose decoded path
"/api/x" lies under the API prefix but whose raw request URI
"/%61pi/x" is percent-encoded is served the shell with status 200,
not the API 404, because the prefix test reads the raw URI. -/
theorem c5_counterexample :
    unescapePath (stripQuery (("/%61pi/x").toList)) =
      some (("/api/x").toList)
    ∧ beginsWith apiSlash (("/api/x").toList) = true
    ∧ (noRouteHandler (fun _ => false) (("/%61pi/x").toList)
        (("/api/x").toList) (fun _ => some baseMarker) [] [] false).map
        (fun r => r.status) = some 200 := by
  refine ⟨by decide, by decide, by decide⟩

/-- Claim C6, evaluated at the failing input: with the shell document
absent from the asset store, a non-API fallback request yields no
well-defined response from the handler (the discarded Open error
leaves a nil file that io.ReadAll dereferences) instead of the policy
fallback the specification requires. -/
theorem c6_missing_shell_eval :
    noRouteHandler (fun _ => false) (("/x").toList) (("/x").toList)
      (fun _ => none) [] [] false = none := rfl

/-- Claim C10: the 404-versus-shell choice is a function of the raw
request URI alone (the decoded path never influences the status), the
raw URI is what the "/api/" prefix test reads, the page-name
resolution receives the decoded path, and on the concrete
percent-encoded request /%61pi/x (decoded path /api/x) the handler
serves the rewritten shell rather than the API 404. -/
theorem c10_raw_uri_discriminator :
    (∀ (kp : List Char → Bool) (rawURI p p' : List Char)
        (store : AssetStore) (rs wr : List Char) (ue : Bool),
      (noRouteHandler kp rawURI p store rs wr ue).map (fun r => r.status)
        = (noRouteHandler kp rawURI p' store rs wr ue).map
            (fun r => r.status))
    ∧ beginsWith apiSlash (("/%61pi/x").toList) = false
    ∧ unescapePath (stripQuery (("/%61pi/x").toList)) =
        some (("/api/x").toList)
    ∧ beginsWith apiSlash (("/api/x").toList) = true
    ∧ noRouteHandler (fun _ => false) (("/%61pi/x").toList)
        (("/api/x").toList) (fun _ => some baseMarker) [] [] false =
      some ⟨200, htmlContentType,
        rewriteShell baseMarker
          (resolveGo (fun _ => false) (("/api/x").toList)) [] [] false⟩ := by
  refine ⟨?_, by decide, by decide, by decide, rfl⟩
  intro kp rawURI p p' store rs wr ue
  unfold noRouteHandler
  split
  · cases store siteDefaultDocument <;> rfl
  · rfl

theorem runListen_not_failed (outcomes : Nat → ServeOutcome)
    (i f : Nat) (ho : outcomes i ≠ .failed) :
    runListen outcomes i (f + 1) = ⟨1, [], false⟩ := by
  unfold runListen
  cases h : outcomes i with
  | failed => exact absurd h ho
  | success => rfl
  | closed => rfl

theorem runListen_failed_nine (outcomes : Nat → ServeOutcome)
    (f : Nat) (ho : outcomes 9 = .failed) :
    runListen outcomes 9 (f + 1) = ⟨1, [], true⟩ := by
  unfold runListen
  rw [ho]
  simp

theorem runListen_failed_retry (outcomes : Nat → ServeOutcome)
    (i f : Nat) (ho : outcomes i = .failed) (h9 : i ≠ 9) :
    runListen outcomes i (f + 1) =
      ⟨(runListen outcomes (i + 1) f).attempts + 1,
        100 :: (runListen outcomes (i + 1) f).sleepsMs,
        (runListen outcomes (i + 1) f).fatal⟩ := by
  conv_lhs => rw [runListen]
  rw [ho, if_neg h9]

theorem runListen_spec (outcomes : Nat → ServeOutcome) :
    ∀ fuel i, i + fuel = 10 → 1 ≤ i → 1 ≤ fuel →
      (1 ≤ (runListen outcomes i fuel).attempts
        ∧ (runListen outcomes i fuel).attempts ≤ fuel)
      ∧ (runListen outcomes i fuel).sleepsMs =
          List.replicate ((runListen outcomes i fuel).attempts - 1) 100
      ∧ ((runListen outcomes i fuel).fatal = true ↔
          ∀ j, i ≤ j → j ≤ 9 → outcomes j = .failed)
      ∧ (∀ k, i ≤ k → k ≤ 9 →
          (∀ j, i ≤ j → j < k → outcomes j = .failed) →
          outcomes k ≠ .failed →
          (runListen outcomes i fuel).fatal = false
            ∧ (runListen outcomes i fuel).attempts = k - i + 1) := by
  intro fuel
  induction fuel with
  | zero => intro i _ _ hf; omega
  | succ f ih =>
    intro i hsum hi _
    by_cases hfail : outcomes i = .failed
    · by_cases h9 : i = 9
      · subst h9
        rw [runListen_failed_nine outcomes f hfail]
        dsimp only
        refine ⟨⟨le_refl 1, by omega⟩, rfl, ?_, ?_⟩
        · constructor
          · intro _ j hj1 hj2
            have hj : j = 9 := by omega
            subst hj
            exact hfail
          · intro _
            rfl
        · intro k hk1 hk2 _ hkne
          have hk : k = 9 := by omega
          subst hk
          exact absurd hfail hkne
      · have hf1 : 1 ≤ f := by omega
        have hih := ih (i + 1) (by omega) (by omega) hf1
        obtain ⟨⟨ha1, ha2⟩, hsl, hfat, hbreak⟩ := hih
        rw [runListen_failed_retry outcomes i f hfail h9]
        dsimp only
        refine ⟨⟨by omega, by omega⟩, ?_, ?_, ?_⟩
        · rw [hsl]
          have he : (runListen outcomes (i + 1) f).attempts + 1 - 1 =
              ((runListen outcomes (i + 1) f).attempts - 1) + 1 := by
            omega
          rw [he, List.replicate_succ]
        · rw [hfat]
          constructor
          · intro hall j hj1 hj2
            by_cases hji : j = i
            · subst hji
              exact hfail
            · exact hall j (by omega) hj2
          · intro hall j hj1 hj2
            exact hall j (by omega) hj2
        · intro k hk1 hk2 hprior hkne
          have hki : k ≠ i := fun hkeq => hkne (hkeq ▸ hfail)
          have hres := hbreak k (by omega) hk2
            (fun j hj1 hj2 => hprior j (by omega) hj2) hkne
          refine ⟨hres.1, ?_⟩
          rw [hres.2]
          omega
    · rw [runListen_not_failed outcomes i f hfail]
      dsimp only
      refine ⟨⟨le_refl 1, by omega⟩, rfl, ?_, ?_⟩
      · constructor
        · intro h
          exact absurd h (by simp)
        · intro hall
          exact absurd (hall i (le_refl i) (by omega)) hfail
      · intro k hk1 hk2 hprior hkne
        by_cases hki : k = i
        · subst hki
          exact ⟨rfl, by omega⟩
        · exact absurd (hprior i (le_refl i) (by omega)) hfail

/-- Claim C7: the listen loop makes at most 9 ListenAndServe attempts
with one fixed 100 ms sleep between consecutive attempts; it is fatal
(process-terminating) exactly when all 9 attempts fail; and the first
successful (or gracefully closed) attempt k exits the loop after k
attempts without a fatal result. -/
theorem c7_listen_retry (outcomes : Nat → ServeOutcome) :
    (listenLoop outcomes).attempts ≤ 9
    ∧ (listenLoop outcomes).sleepsMs =
        List.replicate ((listenLoop outcomes).attempts - 1) 100
    ∧ ((listenLoop outcomes).fatal = true ↔
        ∀ j, 1 ≤ j → j ≤ 9 → outcomes j = .failed)
    ∧ (∀ k, 1 ≤ k → k ≤ 9 →
        (∀ j, 1 ≤ j → j < k → outcomes j = .failed) →
        outcomes k ≠ .failed →
        (listenLoop outcomes).fatal = false
          ∧ (listenLoop outcomes).attempts = k) := by
  have h := runListen_spec outcomes 9 1 (by omega) (le_refl 1) (by omega)
  obtain ⟨⟨_, ha⟩, hsl, hfat, hbreak⟩ := h
  unfold listenLoop
  refine ⟨ha, hsl, hfat, ?_⟩
  intro k hk1 hk2 hprior hkne
  have hres := hbreak k hk1 hk2 hprior hkne
  refine ⟨hres.1, ?_⟩
  rw [hres.2]
  omega

/-- Witness for C7: when every attempt fails, the loop ends fatal. -/
theorem c7_listen_retry_witness :
    (listenLoop (fun _ => ServeOutcome.failed)).fatal = true :=
  (c7_listen_retry (fun _ => ServeOutcome.failed)).2.2.1.mpr
    (fun _ _ _ => rfl)

/-- Claim C8: the graceful stop gives in-flight requests at most 5
seconds; draining within the bound yields the clean exit, exceeding
it yields the fatal forced-shutdown report, and the two reports are
distinct. -/
theorem c8_shutdown_policy (drainSeconds : Nat) :
    shutdownTimeoutSeconds = 5
    ∧ (drainSeconds ≤ 5 → shutdownStep drainSeconds = .cleanExit)
    ∧ (5 < drainSeconds →
        shutdownStep drainSeconds = .forcedShutdownFatal)
    ∧ ShutdownReport.cleanExit ≠ ShutdownReport.forcedShutdownFatal := by
  refine ⟨rfl, ?_, ?_, by decide⟩
  · intro h
    simp [shutdownStep, shutdownTimeoutSeconds, h]
  · intro h
    rw [shutdownStep, if_neg]
    simp [shutdownTimeoutSeconds]
    omega

/-- Witness for C8: both outcomes at concrete drain times. -/
theorem c8_shutdown_policy_witness :
    shutdownStep 3 = ShutdownReport.cleanExit
    ∧ shutdownStep 7 = ShutdownReport.forcedShutdownFatal :=
  ⟨(c8_shutdown_policy 3).2.1 (by omega),
    (c8_shutdown_policy 7).2.2.1 (by omega)⟩

/-- Claim C9: the origin check always passes; a successful handshake
creates exactly one session carrying the upgraded connection, the
caller's address and the agent string; a failed handshake logs one
error and creates no session. -/
theorem c9_ws_handler (Conn : Type) :
    (∀ origin, checkOrigin origin = true)
    ∧ (∀ (conn : Conn) (ip ua : List Char),
        websocketHandler Conn (UpgradeOutcome.ok conn) ip ua =
          ⟨[], [⟨conn, ip, ua⟩]⟩)
    ∧ (∀ (msg ip ua : List Char),
        (websocketHandler Conn (UpgradeOutcome.err msg) ip ua).sessions
            = []
        ∧ (websocketHandler Conn
            (UpgradeOutcome.err msg) ip ua).errorLogs.length = 1) :=
  ⟨fun _ => rfl, fun _ _ _ => rfl, fun _ _ _ => ⟨rfl, rfl⟩⟩

end FletServer
